import Mathlib

set_option autoImplicit false

/-! Shallow embedding of the quillmark-web artifact-normalization and
bundle-ingestion core (src/lib/exporters.ts, src/lib/loaders.ts and
src/lib/utils.ts), together with theorems settling the specification's
claims about it. -/

namespace QuillmarkWeb

/-- Association-list field lookup; the first binding wins (JS object keys
are unique, so at most one binding per key occurs in practice). -/
def assocFind {α β : Type} [DecidableEq α] : List (α × β) → α → Option β
  | [], _ => none
  | (k, v) :: rest, key => if k = key then some v else assocFind rest key

/-- Characters matched by the JavaScript regular-expression whitespace class
used in the compaction step of the byte normalizer. -/
def isJsSpace (c : Char) : Bool :=
  c = ' ' || c = '\t' || c = '\n' || c.toNat = 0x0b || c.toNat = 0x0c || c = '\r' ||
  c.toNat = 0xa0 || c.toNat = 0x1680 || (0x2000 ≤ c.toNat && c.toNat ≤ 0x200a) ||
  c.toNat = 0x2028 || c.toNat = 0x2029 || c.toNat = 0x202f || c.toNat = 0x205f ||
  c.toNat = 0x3000 || c.toNat = 0xfeff

/-- ASCII whitespace stripped by the forgiving-base64 decoder behind atob:
tab, line feed, form feed, carriage return and space. -/
def isAsciiSpace (c : Char) : Bool :=
  c.toNat = 9 || c.toNat = 10 || c.toNat = 12 || c.toNat = 13 || c.toNat = 32

/-- Characters of the base64 alphabet used by the source pattern: the class
A-Za-z0-9 together with plus (code 43) and slash (code 47). -/
def isB64Char (c : Char) : Bool :=
  (65 ≤ c.toNat && c.toNat ≤ 90) || (97 ≤ c.toNat && c.toNat ≤ 122) ||
  (48 ≤ c.toNat && c.toNat ≤ 57) || c.toNat = 43 || c.toNat = 47

/-- Test of the anchored source pattern: one or more alphabet characters
followed by any number of equals signs. -/
def regexTestB64 (cs : List Char) : Bool :=
  !(cs.takeWhile isB64Char).isEmpty && (cs.dropWhile isB64Char).all (fun c => c = '=')

/-- Numeric value of a base64 alphabet character. -/
def b64Val (c : Char) : Nat :=
  if 65 ≤ c.toNat ∧ c.toNat ≤ 90 then c.toNat - 65
  else if 97 ≤ c.toNat ∧ c.toNat ≤ 122 then c.toNat - 71
  else if 48 ≤ c.toNat ∧ c.toNat ≤ 57 then c.toNat + 4
  else if c.toNat = 43 then 62
  else 63

/-- Bit reassembly of forgiving-base64: each full group of four 6-bit values
yields three bytes, a trailing group of two or three yields one or two. -/
def b64Bytes : List Nat → List Nat
  | v0 :: v1 :: v2 :: v3 :: rest =>
      (v0 * 4 + v1 / 16) :: ((v1 % 16) * 16 + v2 / 4) :: ((v2 % 4) * 64 + v3) :: b64Bytes rest
  | [v0, v1] => [v0 * 4 + v1 / 16]
  | [v0, v1, v2] => [v0 * 4 + v1 / 16, (v1 % 16) * 16 + v2 / 4]
  | _ => []

/-- Padding-removal step of forgiving-base64: when the length is a multiple
of four, up to two trailing equals signs are removed. -/
def dropB64Pad (cs : List Char) : List Char :=
  if cs.length % 4 = 0 then
    cs.take (cs.length - min 2 (cs.reverse.takeWhile (fun c => c = '=')).length)
  else cs

/-- Model of the platform atob primitive (WHATWG forgiving-base64 decode).
Rejection is reported through the error constructor; the host exception has
no stable message, so a fixed tag stands for it. -/
def atob (cs : List Char) : Except String (List Nat) :=
  let d := dropB64Pad (cs.filter (fun c => !(isAsciiSpace c)))
  if d.length % 4 = 1 then .error "InvalidCharacterError"
  else if d.all isB64Char then .ok (b64Bytes (d.map b64Val))
  else .error "InvalidCharacterError"

/-- UTF-8 encoding of one scalar value (the TextEncoder primitive). -/
def utf8EncodeChar (c : Char) : List Nat :=
  let n := c.toNat
  if n < 0x80 then [n]
  else if n < 0x800 then [0xc0 + n / 64, 0x80 + n % 64]
  else if n < 0x10000 then [0xe0 + n / 4096, 0x80 + n / 64 % 64, 0x80 + n % 64]
  else [0xf0 + n / 262144, 0x80 + n / 4096 % 64, 0x80 + n / 64 % 64, 0x80 + n % 64]

/-- UTF-8 encoding of a string (TextEncoder.encode). -/
def utf8Encode (s : String) : List Nat := s.data.flatMap utf8EncodeChar

/-- JavaScript runtime values that can reach the artifact byte normalizer
(toUint8Array in exporters.ts). A plain object carries its possible
distinguished bytes property (the property the source tests with the in
operator) separately from its remaining fields, so that the recursion of
the normalizer is structural; the exotic constructor stands for a value of
none of the other shapes, carrying its Object.prototype.toString
description and the integer list produced by iterating it with Array.from
(none when the iteration protocol raises). -/
inductive JSValue where
  | null
  | uint8array (data : List Nat)
  | arraybuffer (data : List Nat)
  | arr (elems : List JSValue)
  | str (s : String)
  | num (n : Int)
  | obj (bytesProp : Option JSValue) (fields : List (String × JSValue))
  | exotic (typeDesc : String) (iterResult : Option (List Int))

/-- ToUint8 coercion applied by the Uint8Array constructor to each element.
Integral numbers reduce modulo 256. The other element shapes that occur in
this code base (undefined, null, plain objects, typed arrays) pass through
ToNumber as NaN or 0 and coerce to 0; exotic numeric strings and singleton
arrays, which ToNumber would parse, are not modelled and also give 0. -/
def jsToUint8 : JSValue → Nat
  | .num n => (n % 256).toNat
  | _ => 0

/-- ToLength coercion of a length property (integral numbers clamp at zero;
non-numeric shapes pass through ToNumber as NaN, giving 0). -/
def jsToLength : JSValue → Nat
  | .num n => n.toNat
  | _ => 0

/-- Array.from applied to a plain object with no iteration protocol: the
array-like path reads the length property and the index properties. -/
def arrayFromObj (fields : List (String × JSValue)) : List JSValue :=
  (List.range (jsToLength ((assocFind fields "length").getD .null))).map
    (fun i => (assocFind fields (toString i)).getD .null)

/-- Byte normalizer toUint8Array of exporters.ts: collapses the accepted
byte-source shapes into one byte list, or fails with the descriptive error
of the uncoercible case. The base64 string branch can also fail, through
the atob primitive. -/
def toUint8Array : JSValue → Except String (List Nat)
  | .null => .ok []
  | .obj (some b) _ => toUint8Array b
  | .uint8array data => .ok data
  | .arraybuffer data => .ok data
  | .arr elems => .ok (elems.map jsToUint8)
  | .str s =>
      let compact := s.data.filter (fun c => !(isJsSpace c))
      if regexTestB64 compact && compact.length % 4 == 0 then atob compact
      else .ok (utf8Encode s)
  | .num _ => .ok []
  | .obj none fields => .ok ((arrayFromObj fields).map jsToUint8)
  | .exotic _ (some elems) => .ok (elems.map (fun i => (i % 256).toNat))
  | .exotic t none => .error ("Unsupported artifact bytes type: " ++ t)

/-- Result value returned by the render engine; only its artifacts field is
read by the extraction helper. -/
structure RenderResult where
  artifacts : JSValue

/-- Artifact selection of extractArtifact in exporters.ts: index 0 of an
array, else the main entry of an object exposing one, else the artifacts
value itself; the chosen candidate is then normalized. -/
def extractArtifact (result : RenderResult) : Except String (List Nat) :=
  match result.artifacts with
  | .arr elems => toUint8Array (elems.getD 0 .null)
  | .obj b fields =>
      match assocFind fields "main" with
      | some m => toUint8Array m
      | none => toUint8Array (.obj b fields)
  | a => toUint8Array a

/-- Output formats accepted by the export helpers. -/
inductive Format where
  | pdf
  | svg
  | txt
deriving DecidableEq

/-- Render options; only the format field is read by exportToBlob. -/
structure RenderOptions where
  format : Option Format

/-- Browser Blob as constructed by exportToBlob: the copied bytes plus the
declared MIME type. -/
structure Blob where
  bytes : List Nat
  type : String

/-- MIME selection of exportToBlob (the nested conditional in the source). -/
def mimeFor : Format → String
  | .pdf => "application/pdf"
  | .svg => "image/svg+xml"
  | .txt => "text/plain"

/-- exportToBlob of exporters.ts. Markdown parsing and rendering happen in
the external engine and are abstracted as the render argument, a function
from the chosen format to the render result. -/
def exportToBlob (render : Format → RenderResult) (options : Option RenderOptions) :
    Except String Blob :=
  let format := (options.bind RenderOptions.format).getD .pdf
  (extractArtifact (render format)).map (fun bytes => { bytes := bytes, type := mimeFor format })

/-- C4: toUint8Array is the identity on an already-canonical byte-buffer
view, hence renormalizing any normalization result returns it unchanged. -/
theorem toUint8Array_idempotent (b : List Nat) (v : JSValue) (bs : List Nat)
    (h : toUint8Array v = Except.ok bs) :
    toUint8Array (JSValue.uint8array b) = Except.ok b ∧
    toUint8Array (JSValue.uint8array bs) = toUint8Array v :=
  ⟨rfl, by rw [h]; rfl⟩

/-- Witness for C4 at a concrete canonical byte sequence. -/
theorem toUint8Array_idempotent_check :
    toUint8Array (JSValue.uint8array [3, 5]) = Except.ok [3, 5] ∧
    toUint8Array (JSValue.uint8array [9]) = toUint8Array (JSValue.uint8array [9]) :=
  toUint8Array_idempotent [3, 5] (JSValue.uint8array [9]) [9] rfl

/-- C5: the plain-integer-array path of toUint8Array reconstructs any byte
sequence exactly. -/
theorem toUint8Array_array_roundtrip (b : List Nat) (h : ∀ x ∈ b, x < 256) :
    toUint8Array (JSValue.arr (b.map (fun x => JSValue.num (x : Int)))) = Except.ok b := by
  have key : ∀ (l : List Nat), (∀ x ∈ l, x < 256) →
      List.map jsToUint8 (l.map (fun x => JSValue.num (x : Int))) = l := by
    intro l hl
    induction l with
    | nil => rfl
    | cons a t ih =>
        have ha : a < 256 := hl a (by simp)
        have ht := ih (fun x hx => hl x (by simp [hx]))
        have hh : jsToUint8 (JSValue.num (a : Int)) = a := by
          show (((a : Int)) % 256).toNat = a
          omega
        show jsToUint8 (JSValue.num (a : Int)) ::
            List.map jsToUint8 (t.map (fun x => JSValue.num (x : Int))) = a :: t
        rw [hh, ht]
  simp only [toUint8Array, key b h]

/-- Witness for C5 at a concrete byte sequence. -/
theorem toUint8Array_array_roundtrip_check :
    toUint8Array (JSValue.arr ([0, 255, 7].map (fun x => JSValue.num (x : Int)))) =
      Except.ok [0, 255, 7] :=
  toUint8Array_array_roundtrip [0, 255, 7] (by decide)

/-- C7: extractArtifact precedence: index 0 of an array, else the main
entry of an object exposing one, else the artifacts value itself, each
passed to the byte normalizer. -/
theorem extractArtifact_precedence (e : JSValue) (elems : List JSValue)
    (bp : Option JSValue) (fields : List (String × JSValue)) (m a : JSValue)
    (hm : assocFind fields "main" = some m)
    (harr : ∀ l, a ≠ JSValue.arr l)
    (hobj : ∀ b f, a = JSValue.obj b f → assocFind f "main" = none) :
    extractArtifact { artifacts := JSValue.arr (e :: elems) } = toUint8Array e ∧
    extractArtifact { artifacts := JSValue.obj bp fields } = toUint8Array m ∧
    extractArtifact { artifacts := a } = toUint8Array a := by
  refine ⟨rfl, ?_, ?_⟩
  · simp [extractArtifact, hm]
  · cases a with
    | null => rfl
    | uint8array d => rfl
    | arraybuffer d => rfl
    | arr l => exact absurd rfl (harr l)
    | str s => rfl
    | num n => rfl
    | obj b f => simp [extractArtifact, hobj b f rfl]
    | exotic t r => rfl

/-- Witness for C7 exercising all three branches on concrete values. -/
theorem extractArtifact_precedence_check :
    extractArtifact { artifacts := JSValue.arr [JSValue.uint8array [1]] } = Except.ok [1] ∧
    extractArtifact { artifacts := JSValue.obj none [("main", JSValue.uint8array [2])] } =
      Except.ok [2] ∧
    extractArtifact { artifacts := JSValue.uint8array [3] } = Except.ok [3] := by
  have h := extractArtifact_precedence (JSValue.uint8array [1]) [] none
      [("main", JSValue.uint8array [2])] (JSValue.uint8array [2]) (JSValue.uint8array [3])
      (by simp [assocFind]) (fun l hl => JSValue.noConfusion hl)
      (fun b f hf => JSValue.noConfusion hf)
  exact ⟨h.1, h.2.1, h.2.2⟩

/-- C8: exportToBlob tags the blob with application/pdf, image/svg+xml or
text/plain according to the declared format, defaulting to pdf when the
caller supplies none. -/
theorem exportToBlob_mime (render : Format → RenderResult) (options : Option RenderOptions)
    (blob : Blob) (h : exportToBlob render options = Except.ok blob) :
    blob.type = mimeFor ((options.bind RenderOptions.format).getD Format.pdf) ∧
    mimeFor Format.pdf = "application/pdf" ∧
    mimeFor Format.svg = "image/svg+xml" ∧
    mimeFor Format.txt = "text/plain" ∧
    (options.bind RenderOptions.format = none → blob.type = "application/pdf") := by
  have h1 : blob.type = mimeFor ((options.bind RenderOptions.format).getD Format.pdf) := by
    have h' : Except.map
        (fun bytes => { bytes := bytes,
                        type := mimeFor ((options.bind RenderOptions.format).getD Format.pdf) })
        (extractArtifact (render ((options.bind RenderOptions.format).getD Format.pdf))) =
        Except.ok blob := h
    cases hres : extractArtifact (render ((options.bind RenderOptions.format).getD Format.pdf)) with
    | ok bs =>
        rw [hres] at h'
        simp only [Except.map] at h'
        cases h'
        rfl
    | error e =>
        rw [hres] at h'
        simp only [Except.map] at h'
        exact absurd h' (by simp)
  refine ⟨h1, rfl, rfl, rfl, fun hn => ?_⟩
  rw [h1, hn]
  rfl

/-- Witness for C8 with no caller-supplied format, hitting the pdf default. -/
theorem exportToBlob_mime_check :
    ({ bytes := [1], type := "application/pdf" } : Blob).type =
      mimeFor (((none : Option RenderOptions).bind RenderOptions.format).getD Format.pdf) :=
  (exportToBlob_mime (fun _ => { artifacts := JSValue.uint8array [1] }) none
    { bytes := [1], type := "application/pdf" } rfl).1

/-- C10: an empty artifact array normalizes to the empty byte sequence (the
missing index-0 element takes the null branch) and exportToBlob then
returns an empty blob of the selected MIME type instead of failing. -/
theorem extractArtifact_empty_array :
    extractArtifact { artifacts := JSValue.arr [] } = Except.ok [] ∧
    ∀ options : Option RenderOptions,
      exportToBlob (fun _ => { artifacts := JSValue.arr [] }) options =
        Except.ok { bytes := ([] : List Nat),
                    type := mimeFor ((options.bind RenderOptions.format).getD Format.pdf) } := by
  exact ⟨rfl, fun options => rfl⟩

/-- Base64 alphabet characters are never ASCII whitespace. -/
theorem b64_not_space {c : Char} (h : isB64Char c = true) : isAsciiSpace c = false := by
  simp only [isB64Char, isAsciiSpace, Bool.or_eq_true, Bool.and_eq_true,
    decide_eq_true_eq] at h
  simp only [isAsciiSpace, Bool.or_eq_false_iff, decide_eq_false_iff_not]
  omega

/-- The equals sign is not a base64 alphabet character. -/
theorem eq_sign_not_b64 : isB64Char '=' = false := by decide

/-- takeWhile and dropWhile split an append whose left part satisfies the
test and whose right part starts by failing it. -/
theorem takeWhile_app_eq (p : Char → Bool) (e : List Char) (he : ∀ c ∈ e, p c = false) :
    ∀ a : List Char, (∀ c ∈ a, p c = true) →
      (a ++ e).takeWhile p = a ∧ (a ++ e).dropWhile p = e := by
  intro a
  induction a with
  | nil =>
      intro _
      cases e with
      | nil => exact ⟨rfl, rfl⟩
      | cons c cs =>
          have hc : p c = false := he c (by simp)
          exact ⟨by simp [List.takeWhile_cons, hc], by simp [List.dropWhile_cons, hc]⟩
  | cons c a ih =>
      intro ha
      have hc : p c = true := ha c (by simp)
      have hrec := ih (fun x hx => ha x (by simp [hx]))
      constructor
      · simp [List.takeWhile_cons, hc, hrec.1]
      · simp [List.dropWhile_cons, hc, hrec.2]

/-- The source base64 pattern accepts exactly the strings made of a
non-empty alphabet run followed by a run of equals signs. -/
theorem regexTestB64_iff (cs : List Char) :
    regexTestB64 cs = true ↔
      ∃ a e, cs = a ++ e ∧ a ≠ [] ∧ (∀ c ∈ a, isB64Char c = true) ∧ ∀ c ∈ e, c = '=' := by
  constructor
  · intro h
    simp only [regexTestB64, Bool.and_eq_true, Bool.not_eq_true', List.all_eq_true] at h
    refine ⟨cs.takeWhile isB64Char, cs.dropWhile isB64Char,
      (List.takeWhile_append_dropWhile isB64Char cs).symm, ?_, ?_, ?_⟩
    · intro hnil
      rw [hnil] at h
      simp at h
    · intro c hc
      exact List.mem_takeWhile_imp hc
    · intro c hc
      exact of_decide_eq_true (h.2 c hc)
  · rintro ⟨a, e, rfl, ha, hb, he⟩
    have he2 : ∀ c ∈ e, isB64Char c = false := by
      intro c hc
      rw [he c hc]
      exact eq_sign_not_b64
    have htw := takeWhile_app_eq isB64Char e he2 a hb
    simp only [regexTestB64, htw.1, htw.2, Bool.and_eq_true, Bool.not_eq_true',
      List.all_eq_true]
    constructor
    · cases a with
      | nil => exact absurd rfl ha
      | cons x xs => rfl
    · exact fun c hc => decide_eq_true (he c hc)

/-- The run of trailing equals signs of an alphabet run followed by padding
is exactly the padding. -/
theorem rev_trailing_eq (a : List Char) (k : Nat)
    (hb : ∀ c ∈ a, isB64Char c = true) :
    (a ++ List.replicate k '=').reverse.takeWhile (fun c => c = '=') =
      List.replicate k '=' := by
  rw [List.reverse_append, List.reverse_replicate]
  have hrev : ∀ c ∈ a.reverse, (fun c => decide (c = '=')) c = false := by
    intro c hc
    have hcb : isB64Char c = true := hb c (List.mem_reverse.mp hc)
    simp only [decide_eq_false_iff_not]
    intro hceq
    rw [hceq] at hcb
    exact absurd hcb (by decide)
  exact (takeWhile_app_eq (fun c => decide (c = '=')) a.reverse hrev
    (List.replicate k '=') (fun c hc => by rw [(List.mem_replicate.mp hc).2]; rfl)).1

/-- Padding removal on an alphabet run followed by padding keeps the run and
the part of the padding beyond the first two signs. -/
theorem dropB64Pad_shape (a : List Char) (k : Nat)
    (hb : ∀ c ∈ a, isB64Char c = true) (hlen : (a.length + k) % 4 = 0) :
    dropB64Pad (a ++ List.replicate k '=') = a ++ List.replicate (k - min 2 k) '=' := by
  have hlen2 : (a ++ List.replicate k '=').length = a.length + k := by
    simp [List.length_append, List.length_replicate]
  have htr := rev_trailing_eq a k hb
  rw [dropB64Pad, hlen2, if_pos hlen, htr, List.length_replicate]
  have hmin : k - min 2 k ≤ k := Nat.sub_le _ _
  have harith : a.length + k - min 2 k = a.length + (k - min 2 k) := by omega
  rw [harith, List.take_append, List.take_replicate,
    Nat.min_eq_left hmin]

/-- The atob primitive succeeds on regex-shaped input with at most two
trailing equals signs, producing the bit-reassembled bytes of the run. -/
theorem atob_ok (a : List Char) (k : Nat)
    (hb : ∀ c ∈ a, isB64Char c = true) (hk : k ≤ 2) (hlen : (a.length + k) % 4 = 0) :
    atob (a ++ List.replicate k '=') = Except.ok (b64Bytes (a.map b64Val)) := by
  have hfilter : (a ++ List.replicate k '=').filter (fun c => !(isAsciiSpace c)) =
      a ++ List.replicate k '=' := by
    apply List.filter_eq_self.mpr
    intro c hc
    rcases List.mem_append.mp hc with h1 | h2
    · simp [b64_not_space (hb c h1)]
    · rw [(List.mem_replicate.mp h2).2]
      rfl
  have hd : dropB64Pad ((a ++ List.replicate k '=').filter (fun c => !(isAsciiSpace c))) =
      a := by
    rw [hfilter, dropB64Pad_shape a k hb hlen, Nat.min_eq_right hk, Nat.sub_self]
    simp
  simp only [atob, hd]
  rw [if_neg (by omega), if_pos (List.all_eq_true.mpr hb)]

/-- The atob primitive rejects regex-shaped input with three or more
trailing equals signs. -/
theorem atob_err (a : List Char) (k : Nat)
    (hb : ∀ c ∈ a, isB64Char c = true) (hk : 3 ≤ k) (hlen : (a.length + k) % 4 = 0) :
    atob (a ++ List.replicate k '=') = Except.error "InvalidCharacterError" := by
  have hfilter : (a ++ List.replicate k '=').filter (fun c => !(isAsciiSpace c)) =
      a ++ List.replicate k '=' := by
    apply List.filter_eq_self.mpr
    intro c hc
    rcases List.mem_append.mp hc with h1 | h2
    · simp [b64_not_space (hb c h1)]
    · rw [(List.mem_replicate.mp h2).2]
      rfl
  have hd : dropB64Pad ((a ++ List.replicate k '=').filter (fun c => !(isAsciiSpace c))) =
      a ++ List.replicate (k - 2) '=' := by
    rw [hfilter, dropB64Pad_shape a k hb hlen, Nat.min_eq_left (by omega)]
  have hlen3 : (a ++ List.replicate (k - 2) '=').length % 4 ≠ 1 := by
    simp only [List.length_append, List.length_replicate]
    omega
  have hall : ((a ++ List.replicate (k - 2) '=').all isB64Char) = false := by
    apply List.all_eq_false.mpr
    refine ⟨'=', ?_, ?_⟩
    · apply List.mem_append.mpr
      right
      exact List.mem_replicate.mpr ⟨by omega, rfl⟩
    · rw [eq_sign_not_b64]
      exact Bool.false_ne_true
  simp only [atob, hd]
  rw [if_neg hlen3, if_neg (by rw [hall]; exact Bool.false_ne_true)]

/-- C6 amended: toUint8Array on a string first removes JS whitespace; when
the compacted string is a non-empty base64-alphabet run followed by at most
two equals signs and has length a multiple of four, it is base64-decoded to
bytes; with three or more trailing equals signs the decode primitive
rejects and the call fails; in every other case the original string is
UTF-8-encoded. -/
theorem toUint8Array_string_spec (s : String) :
    (regexTestB64 (s.data.filter (fun c => !(isJsSpace c))) = false ∨
        (s.data.filter (fun c => !(isJsSpace c))).length % 4 ≠ 0 →
      toUint8Array (JSValue.str s) = Except.ok (utf8Encode s)) ∧
    (∀ a k, s.data.filter (fun c => !(isJsSpace c)) = a ++ List.replicate k '=' →
      a ≠ [] → (∀ c ∈ a, isB64Char c = true) → (a.length + k) % 4 = 0 →
      (k ≤ 2 →
        toUint8Array (JSValue.str s) = Except.ok (b64Bytes (a.map b64Val))) ∧
      (3 ≤ k →
        toUint8Array (JSValue.str s) = Except.error "InvalidCharacterError")) := by
  constructor
  · intro h
    have hcond : (regexTestB64 (s.data.filter (fun c => !(isJsSpace c))) &&
        (s.data.filter (fun c => !(isJsSpace c))).length % 4 == 0) = false := by
      rcases h with h1 | h2
      · simp [h1]
      · simp only [Bool.and_eq_false_iff]
        right
        simpa using h2
    simp only [toUint8Array, hcond]
    rfl
  · intro a k hc ha hb hlen
    have hregex : regexTestB64 (s.data.filter (fun c => !(isJsSpace c))) = true := by
      rw [hc]
      exact (regexTestB64_iff _).mpr ⟨a, List.replicate k '=', rfl, ha, hb,
        fun c hcm => (List.mem_replicate.mp hcm).2⟩
    have hlenf : (s.data.filter (fun c => !(isJsSpace c))).length % 4 = 0 := by
      rw [hc]
      simp only [List.length_append, List.length_replicate]
      exact hlen
    have hcond : (regexTestB64 (s.data.filter (fun c => !(isJsSpace c))) &&
        (s.data.filter (fun c => !(isJsSpace c))).length % 4 == 0) = true := by
      rw [hregex, hlenf]
      rfl
    have hbranch : toUint8Array (JSValue.str s) =
        atob (s.data.filter (fun c => !(isJsSpace c))) := by
      simp only [toUint8Array, hcond]
      rfl
    constructor
    · intro hk
      rw [hbranch, hc]
      exact atob_ok a k hb hk hlen
    · intro hk
      rw [hbranch, hc]
      exact atob_err a k hb hk hlen

/-- Witness for the amended C6: a valid base64 string decodes, a plain text
string UTF-8-encodes. -/
theorem toUint8Array_string_spec_check :
    toUint8Array (JSValue.str "aGk=") = Except.ok [104, 105] ∧
    toUint8Array (JSValue.str "hi there") = Except.ok (utf8Encode "hi there") := by
  constructor
  · have h := ((toUint8Array_string_spec "aGk=").2 ['a', 'G', 'k'] 1 (by decide)
      (by decide) (by decide) (by decide)).1 (by decide)
    rw [h]
    rfl
  · exact (toUint8Array_string_spec "hi there").1 (by right; decide)

/-- C6 counterexample: the compacted string satisfies the source base64
condition (pattern matched, length a multiple of four), yet the call fails
through atob instead of producing decoded bytes. -/
theorem toUint8Array_base64_pattern_cex :
    regexTestB64 ("A===".data.filter (fun c => !(isJsSpace c))) = true ∧
    ("A===".data.filter (fun c => !(isJsSpace c))).length % 4 = 0 ∧
    toUint8Array (JSValue.str "A===") = Except.error "InvalidCharacterError" := by
  refine ⟨by decide, by decide, ?_⟩
  rfl

/-- Value reached after unwrapping nested bytes-property wrappers. -/
def unwrapBytes : JSValue → JSValue
  | .obj (some b) _ => unwrapBytes b
  | v => v

/-- Test for the wrapper shape, an object with a bytes property. -/
def isWrapper : JSValue → Bool
  | .obj (some _) _ => true
  | _ => false

/-- Normalization only depends on the value reached after unwrapping. -/
theorem toUint8Array_unwrap : ∀ v, toUint8Array v = toUint8Array (unwrapBytes v)
  | .null => rfl
  | .uint8array _ => rfl
  | .arraybuffer _ => rfl
  | .arr _ => rfl
  | .str _ => rfl
  | .num _ => rfl
  | .obj none _ => rfl
  | .obj (some b) _ => toUint8Array_unwrap b
  | .exotic _ (some _) => rfl
  | .exotic _ none => rfl

/-- Unwrapping never stops on a wrapper. -/
theorem unwrapBytes_not_wrapper : ∀ v, isWrapper (unwrapBytes v) = false
  | .null => rfl
  | .uint8array _ => rfl
  | .arraybuffer _ => rfl
  | .arr _ => rfl
  | .str _ => rfl
  | .num _ => rfl
  | .obj none _ => rfl
  | .obj (some b) _ => unwrapBytes_not_wrapper b
  | .exotic _ (some _) => rfl
  | .exotic _ none => rfl

/-- Byte sources on which normalization fails: an uncoercible exotic value,
or a string passing the source base64 condition whose padding the atob
primitive rejects (more than two trailing equals signs). -/
def badByteSource : JSValue → Bool
  | .exotic _ none => true
  | .str s =>
      regexTestB64 (s.data.filter (fun c => !(isJsSpace c))) &&
      (s.data.filter (fun c => !(isJsSpace c))).length % 4 == 0 &&
      2 < ((s.data.filter (fun c => !(isJsSpace c))).reverse.takeWhile
            (fun c => c = '=')).length
  | _ => false

/-- Failure characterization of normalizing a string. -/
theorem toUint8Array_str_failure (s : String) :
    (∃ msg, toUint8Array (JSValue.str s) = Except.error msg) ↔
      badByteSource (JSValue.str s) = true := by
  cases hcond : (regexTestB64 (s.data.filter (fun c => !(isJsSpace c))) &&
      (s.data.filter (fun c => !(isJsSpace c))).length % 4 == 0) with
  | false =>
      have hok : toUint8Array (JSValue.str s) = Except.ok (utf8Encode s) := by
        apply (toUint8Array_string_spec s).1
        rcases Bool.and_eq_false_iff.mp hcond with h1 | h2
        · exact Or.inl h1
        · right
          simpa using h2
      constructor
      · rintro ⟨msg, hmsg⟩
        rw [hok] at hmsg
        exact absurd hmsg (by simp)
      · intro hbad
        simp only [badByteSource] at hbad
        rw [Bool.and_eq_true, Bool.and_eq_true] at hbad
        have : (regexTestB64 (s.data.filter (fun c => !(isJsSpace c))) &&
            (s.data.filter (fun c => !(isJsSpace c))).length % 4 == 0) = true := by
          rw [Bool.and_eq_true]
          exact hbad.1
        rw [hcond] at this
        exact absurd this Bool.false_ne_true
  | true =>
      have hsplit := hcond
      rw [Bool.and_eq_true] at hsplit
      obtain ⟨a, e, hc, ha, hb, he⟩ := (regexTestB64_iff _).mp hsplit.1
      have hrepl : e = List.replicate e.length '=' := List.eq_replicate_of_mem he
      rw [hrepl] at hc
      have hlen : (a.length + e.length) % 4 = 0 := by
        have := of_decide_eq_true hsplit.2
        rw [hc] at this
        simpa [List.length_append, List.length_replicate] using this
      have htr : ((s.data.filter (fun c => !(isJsSpace c))).reverse.takeWhile
          (fun c => c = '=')).length = e.length := by
        rw [hc, rev_trailing_eq a e.length hb, List.length_replicate]
      have hspec := (toUint8Array_string_spec s).2 a e.length hc ha hb hlen
      have hbadeq : badByteSource (JSValue.str s) = decide (2 < e.length) := by
        simp only [badByteSource, hcond, htr, Bool.true_and]
      by_cases hk : e.length ≤ 2
      · have hok := hspec.1 hk
        constructor
        · rintro ⟨msg, hmsg⟩
          rw [hok] at hmsg
          exact absurd hmsg (by simp)
        · intro hbad
          rw [hbadeq] at hbad
          have := of_decide_eq_true hbad
          omega
      · have herr := hspec.2 (by omega)
        constructor
        · intro _
          rw [hbadeq]
          exact decide_eq_true (by omega)
        · intro _
          exact ⟨"InvalidCharacterError", herr⟩

/-- C9 amended: after unwrapping bytes wrappers, normalization fails
exactly on an uncoercible exotic value, whose error names the runtime type
description, or on a string passing the base64 condition whose padding the
atob primitive rejects, whose error carries no type description. -/
theorem toUint8Array_failure_spec (v : JSValue) :
    ((∃ msg, toUint8Array v = Except.error msg) ↔
      badByteSource (unwrapBytes v) = true) ∧
    (∀ t, unwrapBytes v = JSValue.exotic t none →
      toUint8Array v = Except.error ("Unsupported artifact bytes type: " ++ t)) := by
  have hw := unwrapBytes_not_wrapper v
  rw [toUint8Array_unwrap v]
  constructor
  · cases hu : unwrapBytes v with
    | null => simp [toUint8Array, badByteSource]
    | uint8array d => simp [toUint8Array, badByteSource]
    | arraybuffer d => simp [toUint8Array, badByteSource]
    | arr l => simp [toUint8Array, badByteSource]
    | str s => exact toUint8Array_str_failure s
    | num n => simp [toUint8Array, badByteSource]
    | obj b f =>
        cases b with
        | none => simp [toUint8Array, badByteSource]
        | some b0 =>
            rw [hu] at hw
            exact absurd hw (by simp [isWrapper])
    | exotic t r =>
        cases r with
        | none => simp [toUint8Array, badByteSource]
        | some l => simp [toUint8Array, badByteSource]
  · intro t ht
    rw [ht]
    rfl

/-- Witness for the amended C9 at an uncoercible concrete value. -/
theorem toUint8Array_failure_spec_check :
    toUint8Array (JSValue.exotic "[object WeakMap]" none) =
      Except.error ("Unsupported artifact bytes type: " ++ "[object WeakMap]") :=
  (toUint8Array_failure_spec (JSValue.exotic "[object WeakMap]" none)).2
    "[object WeakMap]" rfl

/-- C9 counterexample: a string is one of the recognized shapes, yet this
one makes normalization fail, and with an error that does not carry the
runtime type description. -/
theorem toUint8Array_recognized_failure_cex :
    toUint8Array (JSValue.str "AB======") = Except.error "InvalidCharacterError" := by
  rfl

/-! Loader side: fromZip of loaders.ts together with insertPath and
detectBinaryFile of utils.ts. JS strings on this side are modelled as
character lists, so that the path arithmetic of the source is literal. -/

/-- JSON-like values making up the bundle tree built by the loader: decoded
text, binary byte arrays, and plain objects. -/
inductive JVal where
  | vstr (s : List Char)
  | vbytes (b : List Nat)
  | vobj (fields : List (List Char × JVal))

/-- Test for the primitive (non-object) tree values. -/
def isPrimB : JVal → Bool
  | .vstr _ => true
  | .vbytes _ => true
  | .vobj _ => false

/-- Key lookup on an object node, none on a primitive. -/
def rootLookup : JVal → List Char → Option JVal
  | .vobj fields, k => assocFind fields k
  | _, _ => none

/-- JS object assignment on the field list: an existing key keeps its
position, a new key is appended at the end. -/
def setKey : List (List Char × JVal) → List Char → JVal → List (List Char × JVal)
  | [], k, v => [(k, v)]
  | (k0, v0) :: rest, k, v =>
      if k0 = k then (k, v) :: rest else (k0, v0) :: setKey rest k v

/-- insertPath of utils.ts: recursive insertion of a value at a path into
the nested object tree. An empty parts list corresponds to destructuring
undefined in JS, which assigns under the key "undefined"; the loader never
produces it, since splitting a path always yields at least one segment.
Recursing into a primitive, which the loader never does either because all
stored values are objects, would raise in JS and is modelled as leaving the
tree unchanged. -/
def insertPath : JVal → List (List Char) → JVal → JVal
  | .vobj fields, [], v => .vobj (setKey fields ("undefined".data) v)
  | .vobj fields, [k], v => .vobj (setKey fields k v)
  | .vobj fields, k :: rest, v =>
      .vobj (setKey fields k (insertPath ((assocFind fields k).getD (.vobj [])) rest v))
  | root, _, _ => root

/-- JS String.split on a single-character separator. -/
def splitChars (sep : Char) : List Char → List (List Char)
  | [] => [[]]
  | c :: rest =>
      match splitChars sep rest with
      | [] => [[c]]
      | h :: t => if c = sep then [] :: h :: t else (c :: h) :: t

/-- JS String.startsWith on character lists. -/
def startsList : List Char → List Char → Bool
  | [], _ => true
  | _ :: _, [] => false
  | p :: ps, c :: cs => p = c && startsList ps cs

/-- Binary-extension allow-list of utils.ts. -/
def BINARY_EXTENSIONS : List (List Char) :=
  [".png".data, ".jpg".data, ".jpeg".data, ".gif".data, ".webp".data, ".bmp".data,
   ".ico".data, ".pdf".data, ".ttf".data, ".otf".data, ".woff".data, ".woff2".data,
   ".zip".data, ".tar".data, ".gz".data]

/-- Suffix of a character list starting at its final dot; empty when there
is no dot, matching the empty extension the source uses then. -/
def afterLastDot : List Char → List Char
  | [] => []
  | c :: rest =>
      if c = '.' then
        if rest.any (fun x => x = '.') then afterLastDot rest else c :: rest
      else afterLastDot rest

/-- detectBinaryFile of utils.ts: case-insensitive extension test against
the binary allow-list. -/
def detectBinaryFile (filename : List Char) : Bool :=
  BINARY_EXTENSIONS.contains ((afterLastDot filename).map Char.toLower)

/-- One uncompressed zip entry: archive path and raw bytes, in archive
order as delivered by the unzip callback. -/
structure ZipEntry where
  path : List Char
  data : List Nat
deriving DecidableEq

/-- Manifest filename. -/
def quillTomlChars : List Char := "Quill.toml".data

/-- Key of file contents. -/
def contentsChars : List Char := "contents".data

/-- Reserved root key of the bundle. -/
def filesChars : List Char := "files".data

/-- Directory markers end with the path separator. -/
def endsSlash (p : List Char) : Bool := p.getLast? = some '/'

/-- First path segment as collected by the wrapper heuristic: the part
before the first separator, only when that separator occurs at a positive
index (root-level names without a separator contribute nothing). -/
def firstSeg (p : List Char) : Option (List Char) :=
  match p.findIdx? (fun c => c = '/') with
  | some i => if 0 < i then some (p.take i) else none
  | none => none

/-- Manifest presence at the archive root (file or directory marker). -/
def hasRootManifest (entries : List ZipEntry) : Bool :=
  entries.any (fun e => e.path = quillTomlChars || e.path = quillTomlChars ++ ['/'])

/-- Wrapper-folder detection of fromZip: when the manifest is not at the
root, the distinct first segments of the separator-carrying paths are
collected; when they form a singleton whose folder directly contains the
manifest, that folder plus the separator becomes the path piece to strip,
otherwise nothing is stripped. -/
def computePfx (entries : List ZipEntry) : List Char :=
  if hasRootManifest entries then [] else
    match (entries.filterMap (fun e => firstSeg e.path)).dedup with
    | [top] =>
        if entries.any (fun e => e.path = top ++ '/' :: quillTomlChars) then top ++ ['/']
        else []
    | _ => []

/-- Replacement character produced by lenient UTF-8 decoding. -/
def replChar : Char := Char.ofNat 0xfffd

/-- Decoding step for one code point of lenient UTF-8 (WHATWG): given the
lead byte and the following bytes, the produced character and the number of
extra bytes consumed. Lead and continuation ranges exclude overlong forms
and surrogates; a malformed sequence yields the replacement character and
decoding restarts at the first unconsumed byte. -/
def utf8Step (b : Nat) (rest : List Nat) : Char × Nat :=
  if b ≤ 0x7f then (Char.ofNat b, 0)
  else if 0xc2 ≤ b ∧ b ≤ 0xdf then
    match rest with
    | b2 :: _ =>
        if 0x80 ≤ b2 ∧ b2 ≤ 0xbf then (Char.ofNat ((b - 0xc0) * 64 + (b2 - 0x80)), 1)
        else (replChar, 0)
    | [] => (replChar, 0)
  else if 0xe0 ≤ b ∧ b ≤ 0xef then
    match rest with
    | b2 :: rest2 =>
        if (if b = 0xe0 then 0xa0 else 0x80) ≤ b2 ∧ b2 ≤ (if b = 0xed then 0x9f else 0xbf) then
          match rest2 with
          | b3 :: _ =>
              if 0x80 ≤ b3 ∧ b3 ≤ 0xbf then
                (Char.ofNat ((b - 0xe0) * 4096 + (b2 - 0x80) * 64 + (b3 - 0x80)), 2)
              else (replChar, 1)
          | [] => (replChar, 1)
        else (replChar, 0)
    | [] => (replChar, 0)
  else if 0xf0 ≤ b ∧ b ≤ 0xf4 then
    match rest with
    | b2 :: rest2 =>
        if (if b = 0xf0 then 0x90 else 0x80) ≤ b2 ∧ b2 ≤ (if b = 0xf4 then 0x8f else 0xbf) then
          match rest2 with
          | b3 :: rest3 =>
              if 0x80 ≤ b3 ∧ b3 ≤ 0xbf then
                match rest3 with
                | b4 :: _ =>
                    if 0x80 ≤ b4 ∧ b4 ≤ 0xbf then
                      (Char.ofNat ((b - 0xf0) * 262144 + (b2 - 0x80) * 4096 +
                        (b3 - 0x80) * 64 + (b4 - 0x80)), 3)
                    else (replChar, 2)
                | [] => (replChar, 2)
              else (replChar, 1)
          | [] => (replChar, 1)
        else (replChar, 0)
    | [] => (replChar, 0)
  else (replChar, 0)

/-- Lenient UTF-8 decoding of the TextDecoder primitive: one code point at
a time through the decoding step. -/
def utf8Decode : List Nat → List Char
  | [] => []
  | b :: rest =>
      (utf8Step b rest).1 :: utf8Decode (rest.drop (utf8Step b rest).2)
termination_by l => l.length
decreasing_by simp only [List.length_cons, List.length_drop]; omega

/-- File entry value inserted for one zip entry: binary files keep their
bytes as a plain integer array, text files are UTF-8-decoded. The binary
test reads the original archive path, as in the source. -/
def entryValue (e : ZipEntry) : JVal :=
  if detectBinaryFile e.path then .vobj [(contentsChars, .vbytes e.data)]
  else .vobj [(contentsChars, .vstr (utf8Decode e.data))]

/-- Per-entry step of the fromZip loop: directory markers and paths outside
a non-empty strip piece are skipped, every other entry is inserted at its
possibly-stripped path split on the separator. -/
def entryStep (pfx : List Char) (acc : JVal) (e : ZipEntry) : JVal :=
  if endsSlash e.path then acc
  else if !pfx.isEmpty && !(startsList pfx e.path) then acc
  else
    insertPath acc
      (splitChars '/' (if !pfx.isEmpty then e.path.drop pfx.length else e.path))
      (entryValue e)

/-- Tree-building loop of fromZip over all zip entries. -/
def processEntries (pfx : List Char) (entries : List ZipEntry) : JVal :=
  entries.foldl (entryStep pfx) (.vobj [])

/-- fromZip of loaders.ts on the uncompressed entry mapping: wrapper
detection, tree building, truthiness validation of the manifest key and
wrapping of the tree under the files key. -/
def fromZip (entries : List ZipEntry) : Except String JVal :=
  let tree := processEntries (computePfx entries) entries
  if (rootLookup tree quillTomlChars).isSome then
    .ok (.vobj [(filesChars, tree)])
  else
    .error "Quill.toml not found in zip file. Make sure it exists at the root of the archive."

/-- Path resolution in the built tree by successive child lookups. -/
def resolveNode : JVal → List (List Char) → Option JVal
  | v, [] => some v
  | v, k :: rest =>
      match rootLookup v k with
      | some c => resolveNode c rest
      | none => none

/-- Spec-side File Entry test: the node carries a primitive contents
value. -/
def hasPrimContents (v : JVal) : Bool :=
  match rootLookup v contentsChars with
  | some c => isPrimB c
  | none => false

/-- Spec-side test for a node that also functions as a directory: some
field holds an object entry. -/
def hasObjChild : JVal → Bool
  | .vobj fields => fields.any (fun kv => !(isPrimB kv.2))
  | _ => false

/-- A node that is simultaneously a File Entry and a Directory Entry. -/
def bothFileAndDir (v : JVal) : Bool := hasPrimContents v && hasObjChild v

/-- Modelled from the spec: the first path segment of an arbitrary entry,
the part before the first separator, or the whole name when there is
none — the notion the claim quantifies over all archive entries. -/
def specFirstSeg (p : List Char) : List Char := p.takeWhile (fun c => c ≠ '/')

/-- Lookup of the files tree of a load result. -/
def bundleFiles : Except String JVal → Option JVal
  | .ok b => rootLookup b filesChars
  | .error _ => none

/-- Node of a load result at a path below the bundle root. -/
def nodeAt (r : Except String JVal) (parts : List (List Char)) : Option JVal :=
  match r with
  | .ok v => resolveNode v parts
  | .error _ => none

/-- Archive with a root-level file beside a single wrapped folder. -/
def mixedRootArchive : List ZipEntry :=
  [⟨"README.md".data, []⟩, ⟨"myproj/Quill.toml".data, []⟩, ⟨"myproj/glue.typ".data, []⟩]

/-- C1 counterexample: the set of distinct first path segments over all
archive entries has two members, yet the wrapper folder is stripped: the
load succeeds with the manifest at the bundle root and the root-level file
silently dropped. -/
theorem fromZip_strip_cex :
    ((mixedRootArchive.map (fun e => specFirstSeg e.path)).dedup.length = 2) ∧
    computePfx mixedRootArchive = "myproj/".data ∧
    (bundleFiles (fromZip mixedRootArchive)).isSome = true ∧
    (nodeAt (fromZip mixedRootArchive) [filesChars, quillTomlChars]).isSome = true ∧
    (nodeAt (fromZip mixedRootArchive) [filesChars, "README.md".data]).isSome = false ∧
    (nodeAt (fromZip mixedRootArchive) [filesChars, "myproj".data]).isSome = false := by
  decide

/-- Singleton characterization of duplicate removal. -/
theorem dedup_singleton_iff {α : Type} [DecidableEq α] (l : List α) (a : α) :
    l.dedup = [a] ↔ a ∈ l ∧ ∀ x ∈ l, x = a := by
  constructor
  · intro h
    constructor
    · exact List.mem_dedup.mp (by rw [h]; exact List.mem_singleton_self a)
    · intro x hx
      have hxd : x ∈ l.dedup := List.mem_dedup.mpr hx
      rw [h] at hxd
      simpa using hxd
  · rintro ⟨hmem, hall⟩
    induction l with
    | nil => simp at hmem
    | cons b t ih =>
        have hb : b = a := hall b (by simp)
        subst hb
        by_cases hbt : b ∈ t
        · rw [List.dedup_cons_of_mem hbt]
          exact ih hbt (fun x hx => hall x (by simp [hx]))
        · rw [List.dedup_cons_of_not_mem hbt]
          have ht : t = [] := by
            cases t with
            | nil => rfl
            | cons c t2 =>
                have : c = b := hall c (by simp)
                exact absurd (this ▸ List.mem_cons_self c t2) hbt
          rw [ht]
          rfl

/-- C1 amended: when the manifest is absent from the archive root, the
wrapper folder is stripped if and only if the first segments of the
separator-carrying paths (separator at positive index; root-level names
contribute nothing to the heuristic) all agree on one folder that directly
contains the manifest; the stripped piece is then that folder plus the
separator, and entries outside it are skipped rather than inserted. -/
theorem fromZip_strip_iff (entries : List ZipEntry)
    (hroot : hasRootManifest entries = false) :
    (computePfx entries ≠ [] ↔
      ∃ top, (∃ e ∈ entries, firstSeg e.path = some top) ∧
        (∀ e ∈ entries, ∀ s, firstSeg e.path = some s → s = top) ∧
        ∃ e ∈ entries, e.path = top ++ '/' :: quillTomlChars) ∧
    ∀ top, (∃ e ∈ entries, firstSeg e.path = some top) →
      (∀ e ∈ entries, ∀ s, firstSeg e.path = some s → s = top) →
      (∃ e ∈ entries, e.path = top ++ '/' :: quillTomlChars) →
      computePfx entries = top ++ ['/'] := by
  have hmemfm : ∀ top, top ∈ entries.filterMap (fun e => firstSeg e.path) ↔
      ∃ e ∈ entries, firstSeg e.path = some top := by
    intro top
    exact List.mem_filterMap
  have hcase1 : ∀ top, (entries.filterMap (fun e => firstSeg e.path)).dedup = [top] →
      computePfx entries =
        if entries.any (fun e => e.path = top ++ '/' :: quillTomlChars) then top ++ ['/']
        else [] := by
    intro top hd
    unfold computePfx
    rw [hroot, if_neg Bool.false_ne_true, hd]
  have hcase0 : (entries.filterMap (fun e => firstSeg e.path)).dedup = [] →
      computePfx entries = [] := by
    intro hd
    unfold computePfx
    rw [hroot, if_neg Bool.false_ne_true, hd]
  have hcase2 : ∀ t1 t2 rest,
      (entries.filterMap (fun e => firstSeg e.path)).dedup = t1 :: t2 :: rest →
      computePfx entries = [] := by
    intro t1 t2 rest hd
    unfold computePfx
    rw [hroot, if_neg Bool.false_ne_true, hd]
  have hsingle : ∀ top, (∃ e ∈ entries, firstSeg e.path = some top) →
      (∀ e ∈ entries, ∀ s, firstSeg e.path = some s → s = top) →
      (entries.filterMap (fun e => firstSeg e.path)).dedup = [top] := by
    intro top hmem hall
    apply (dedup_singleton_iff _ top).mpr
    refine ⟨(hmemfm top).mpr hmem, ?_⟩
    intro x hx
    obtain ⟨e2, he2, hs2⟩ := (hmemfm x).mp hx
    exact hall e2 he2 x hs2
  have hvalue : ∀ top, (∃ e ∈ entries, firstSeg e.path = some top) →
      (∀ e ∈ entries, ∀ s, firstSeg e.path = some s → s = top) →
      (∃ e ∈ entries, e.path = top ++ '/' :: quillTomlChars) →
      computePfx entries = top ++ ['/'] := by
    intro top hmem hall hman
    obtain ⟨e, he, hp⟩ := hman
    rw [hcase1 top (hsingle top hmem hall),
      if_pos (List.any_eq_true.mpr ⟨e, he, decide_eq_true hp⟩)]
  refine ⟨⟨?_, ?_⟩, hvalue⟩
  · intro hne
    rcases hd : (entries.filterMap (fun e => firstSeg e.path)).dedup with _ | ⟨top, rest⟩
    · exact absurd (hcase0 hd) hne
    · cases rest with
      | nil =>
          by_cases hany :
              (entries.any (fun e => e.path = top ++ '/' :: quillTomlChars)) = true
          · have hsing := (dedup_singleton_iff _ top).mp hd
            refine ⟨top, (hmemfm top).mp hsing.1, ?_, ?_⟩
            · intro e he s hs
              exact hsing.2 s ((hmemfm s).mpr ⟨e, he, hs⟩)
            · obtain ⟨e, he, hp⟩ := List.any_eq_true.mp hany
              exact ⟨e, he, of_decide_eq_true hp⟩
          · rw [hcase1 top hd, if_neg hany] at hne
            exact absurd rfl hne
      | cons top2 rest2 => exact absurd (hcase2 top top2 rest2 hd) hne
  · rintro ⟨top, hmem, hall, hman⟩
    rw [hvalue top hmem hall hman]
    simp

/-- Archive wrapped in a single folder. -/
def wrappedArchive : List ZipEntry :=
  [⟨"myproj/Quill.toml".data, []⟩, ⟨"myproj/glue.typ".data, []⟩]

/-- Witness for the amended C1 on a concrete wrapped archive. -/
theorem fromZip_strip_iff_check :
    computePfx wrappedArchive = "myproj".data ++ ['/'] :=
  (fromZip_strip_iff wrappedArchive (by decide)).2 "myproj".data
    (by decide) (by decide) (by decide)

/-- Assignment stores the value under the assigned key. -/
theorem assocFind_setKey_self (fields : List (List Char × JVal)) (k : List Char) (v : JVal) :
    assocFind (setKey fields k v) k = some v := by
  induction fields with
  | nil => simp [setKey, assocFind]
  | cons kv rest ih =>
      obtain ⟨k0, v0⟩ := kv
      by_cases h : k0 = k
      · simp [setKey, h, assocFind]
      · simp [setKey, h, assocFind, ih]

/-- Assignment leaves the other keys unchanged. -/
theorem assocFind_setKey_ne (fields : List (List Char × JVal)) (k k' : List Char) (v : JVal)
    (h : k ≠ k') : assocFind (setKey fields k v) k' = assocFind fields k' := by
  induction fields with
  | nil => simp [setKey, assocFind, h]
  | cons kv rest ih =>
      obtain ⟨k0, v0⟩ := kv
      by_cases h0 : k0 = k
      · subst h0
        simp [setKey, assocFind, h]
      · simp only [setKey, if_neg h0, assocFind]
        by_cases h1 : k0 = k'
        · simp [h1]
        · simp [h1, ih]

/-- A found binding is a member of the field list. -/
theorem assocFind_mem {α β : Type} [DecidableEq α] (l : List (α × β)) (k : α) (v : β)
    (h : assocFind l k = some v) : (k, v) ∈ l := by
  induction l with
  | nil => simp [assocFind] at h
  | cons kv rest ih =>
      obtain ⟨k0, v0⟩ := kv
      simp only [assocFind] at h
      by_cases h0 : k0 = k
      · rw [if_pos h0] at h
        cases h
        subst h0
        exact List.mem_cons_self _ _
      · rw [if_neg h0] at h
        exact List.mem_cons_of_mem _ (ih h)

/-- Members after assignment come from the old list or are the new pair. -/
theorem setKey_mem (fields : List (List Char × JVal)) (k : List Char) (v : JVal)
    (kv : List Char × JVal) (h : kv ∈ setKey fields k v) : kv ∈ fields ∨ kv = (k, v) := by
  induction fields with
  | nil =>
      simp only [setKey] at h
      right
      simpa using h
  | cons kv0 rest ih =>
      obtain ⟨k0, v0⟩ := kv0
      by_cases h0 : k0 = k
      · rw [setKey, if_pos h0] at h
        rcases List.mem_cons.mp h with h1 | h1
        · right; exact h1
        · left; exact List.mem_cons_of_mem _ h1
      · rw [setKey, if_neg h0] at h
        rcases List.mem_cons.mp h with h1 | h1
        · left; simp [h1]
        · rcases ih h1 with h2 | h2
          · left; exact List.mem_cons_of_mem _ h2
          · right; exact h2

/-- Insertion leaves a primitive root unchanged and keeps an object root an
object. -/
theorem insertPath_shape (root : JVal) (parts : List (List Char)) (v : JVal) :
    (isPrimB root = true ∧ insertPath root parts v = root) ∨
    ∃ f, insertPath root parts v = JVal.vobj f := by
  cases root with
  | vstr s =>
      left
      refine ⟨rfl, ?_⟩
      cases parts with
      | nil => rfl
      | cons k rest => cases rest with
        | nil => rfl
        | cons r rs => rfl
  | vbytes bb =>
      left
      refine ⟨rfl, ?_⟩
      cases parts with
      | nil => rfl
      | cons k rest => cases rest with
        | nil => rfl
        | cons r rs => rfl
  | vobj f =>
      right
      cases parts with
      | nil => exact ⟨_, rfl⟩
      | cons k rest => cases rest with
        | nil => exact ⟨_, rfl⟩
        | cons r rs => exact ⟨_, rfl⟩

/-- Unfolding equation of splitting at a cons cell. -/
theorem splitChars_cons_eq (sep c : Char) (rest : List Char) (h1 : List Char)
    (t1 : List (List Char)) (hsp : splitChars sep rest = h1 :: t1) :
    splitChars sep (c :: rest) = if c = sep then [] :: h1 :: t1 else (c :: h1) :: t1 := by
  unfold splitChars
  rw [hsp]

/-- Insertion into a primitive root leaves it unchanged. -/
theorem insertPath_prim (root : JVal) (hprim : isPrimB root = true)
    (parts : List (List Char)) (v : JVal) : insertPath root parts v = root := by
  cases root with
  | vstr s =>
      cases parts with
      | nil => rfl
      | cons k rest => cases rest with
        | nil => rfl
        | cons r rs => rfl
  | vbytes bb =>
      cases parts with
      | nil => rfl
      | cons k rest => cases rest with
        | nil => rfl
        | cons r rs => rfl
  | vobj f => simp [isPrimB] at hprim

/-- Splitting never produces the empty list. -/
theorem splitChars_ne_nil (sep : Char) : ∀ cs : List Char, splitChars sep cs ≠ [] := by
  intro cs
  induction cs with
  | nil => simp [splitChars]
  | cons c rest ih =>
      cases hsp : splitChars sep rest with
      | nil => exact absurd hsp ih
      | cons h1 t1 =>
          rw [splitChars_cons_eq sep c rest h1 t1 hsp]
          by_cases hc : c = sep <;> simp [hc]

/-- A split with a single piece means the separator is absent and the piece
is the whole input. -/
theorem splitChars_singleton (sep : Char) :
    ∀ (cs l : List Char), splitChars sep cs = [l] → cs = l := by
  intro cs
  induction cs with
  | nil =>
      intro l h
      simp only [splitChars, List.cons.injEq] at h
      exact h.1.symm ▸ rfl
  | cons c rest ih =>
      intro l h
      cases hsp : splitChars sep rest with
      | nil => exact absurd hsp (splitChars_ne_nil sep rest)
      | cons h1 t1 =>
          rw [splitChars_cons_eq sep c rest h1 t1 hsp] at h
          by_cases hc : c = sep
          · rw [if_pos hc] at h
            simp at h
          · rw [if_neg hc] at h
            injection h with h2 h3
            have h4 : splitChars sep rest = [h1] := by rw [hsp, h3]
            rw [← h2, ih h1 h4]

/-- A successful startsWith decomposes the longer list. -/
theorem startsList_drop : ∀ (p s : List Char), startsList p s = true → s = p ++ s.drop p.length
  | [], s, _ => by simp
  | p :: ps, [], h => by simp [startsList] at h
  | p :: ps, c :: cs, h => by
      simp only [startsList, Bool.and_eq_true, decide_eq_true_eq] at h
      rw [List.length_cons, List.drop_succ_cons, List.cons_append, h.1]
      exact congrArg (fun t => c :: t) (startsList_drop ps cs h.2)

/-- The suffix from the final dot of any name ending in the manifest
filename is the manifest extension. -/
theorem afterLastDot_append_toml (xs : List Char) :
    afterLastDot (xs ++ quillTomlChars) = ".toml".data := by
  induction xs with
  | nil => decide
  | cons c xs ih =>
      have hany : ((xs ++ quillTomlChars).any (fun x => x = '.')) = true :=
        List.any_eq_true.mpr ⟨'.', List.mem_append.mpr (Or.inr (by decide)), by decide⟩
      by_cases hc : c = '.'
      · rw [List.cons_append, afterLastDot, if_pos hc, hany]
        simpa using ih
      · rw [List.cons_append, afterLastDot, if_neg hc]
        exact ih

/-- A path ending in the manifest filename is classified as text. -/
theorem detectBinaryFile_quillToml (xs : List Char) :
    detectBinaryFile (xs ++ quillTomlChars) = false := by
  unfold detectBinaryFile
  rw [afterLastDot_append_toml]
  decide

/-- The value inserted for an entry is always an object. -/
theorem entryValue_isObj (e : ZipEntry) : ∃ f, entryValue e = JVal.vobj f := by
  unfold entryValue
  split
  · exact ⟨_, rfl⟩
  · exact ⟨_, rfl⟩

/-- Safety of the manifest key in a tree: the node under it never carries
byte-array contents. -/
def manifestSafe (t : JVal) : Prop :=
  ∀ n, rootLookup t quillTomlChars = some n →
    ∀ bs, rootLookup n contentsChars ≠ some (JVal.vbytes bs)

/-- Inserting an object value below a node cannot give the node byte-array
contents when it had none. -/
theorem insertPath_contents_safe (child : JVal) (parts : List (List Char)) (v : JVal)
    (hv : ∃ f, v = JVal.vobj f)
    (hch : ∀ bs, rootLookup child contentsChars ≠ some (JVal.vbytes bs)) :
    ∀ bs, rootLookup (insertPath child parts v) contentsChars ≠ some (JVal.vbytes bs) := by
  obtain ⟨vf, hvf⟩ := hv
  cases child with
  | vstr s =>
      rw [insertPath_prim (JVal.vstr s) rfl parts v]
      exact hch
  | vbytes bb =>
      rw [insertPath_prim (JVal.vbytes bb) rfl parts v]
      exact hch
  | vobj cf =>
      cases parts with
      | nil =>
          intro bs
          show assocFind (setKey cf ("undefined".data) v) contentsChars ≠ _
          rw [assocFind_setKey_ne cf _ _ v (by decide)]
          exact hch bs
      | cons k rest =>
          cases rest with
          | nil =>
              intro bs
              show assocFind (setKey cf k v) contentsChars ≠ _
              by_cases hk : k = contentsChars
              · subst hk
                rw [assocFind_setKey_self]
                rw [hvf]
                intro hcontra
                exact JVal.noConfusion (Option.some.injEq _ _ ▸ hcontra)
              · rw [assocFind_setKey_ne cf _ _ v hk]
                exact hch bs
          | cons r rs =>
              intro bs
              show assocFind (setKey cf k
                (insertPath ((assocFind cf k).getD (JVal.vobj [])) (r :: rs) v))
                contentsChars ≠ _
              by_cases hk : k = contentsChars
              · subst hk
                rw [assocFind_setKey_self]
                rcases insertPath_shape ((assocFind cf contentsChars).getD (JVal.vobj []))
                    (r :: rs) v with ⟨hprim, heq⟩ | ⟨f, heq⟩
                · rw [heq]
                  cases hc2 : assocFind cf contentsChars with
                  | none =>
                      rw [hc2] at hprim
                      simp [isPrimB] at hprim
                  | some c2 =>
                      intro hcontra
                      have hc2v : c2 = JVal.vbytes bs := by
                        simpa using hcontra
                      refine hch bs ?_
                      show assocFind cf contentsChars = some (JVal.vbytes bs)
                      rw [hc2, hc2v]
                · rw [heq]
                  intro hcontra
                  exact JVal.noConfusion (Option.some.injEq _ _ ▸ hcontra)
              · rw [assocFind_setKey_ne cf _ _ _ hk]
                exact hch bs

/-- Insertion preserves manifest safety when a value inserted directly at
the manifest key has no byte-array contents. -/
theorem insertPath_manifestSafe (t : JVal) (parts : List (List Char)) (v : JVal)
    (hv : ∃ f, v = JVal.vobj f)
    (hv2 : parts = [quillTomlChars] → ∀ bs, rootLookup v contentsChars ≠ some (JVal.vbytes bs))
    (hsafe : manifestSafe t) : manifestSafe (insertPath t parts v) := by
  cases t with
  | vstr s =>
      rw [insertPath_prim (JVal.vstr s) rfl parts v]
      exact hsafe
  | vbytes bb =>
      rw [insertPath_prim (JVal.vbytes bb) rfl parts v]
      exact hsafe
  | vobj tf =>
      cases parts with
      | nil =>
          intro n hn
          rw [show insertPath (JVal.vobj tf) [] v =
              JVal.vobj (setKey tf ("undefined".data) v) from rfl] at hn
          rw [show rootLookup (JVal.vobj (setKey tf ("undefined".data) v)) quillTomlChars =
              assocFind (setKey tf ("undefined".data) v) quillTomlChars from rfl,
            assocFind_setKey_ne tf _ _ v (by decide)] at hn
          exact hsafe n hn
      | cons k rest =>
          cases rest with
          | nil =>
              intro n hn
              by_cases hk : k = quillTomlChars
              · subst hk
                rw [show rootLookup (insertPath (JVal.vobj tf) [quillTomlChars] v)
                      quillTomlChars =
                    assocFind (setKey tf quillTomlChars v) quillTomlChars from rfl,
                  assocFind_setKey_self] at hn
                cases hn
                exact hv2 rfl
              · rw [show rootLookup (insertPath (JVal.vobj tf) [k] v) quillTomlChars =
                    assocFind (setKey tf k v) quillTomlChars from rfl,
                  assocFind_setKey_ne tf _ _ v hk] at hn
                exact hsafe n hn
          | cons r rs =>
              intro n hn
              rw [show insertPath (JVal.vobj tf) (k :: r :: rs) v =
                  JVal.vobj (setKey tf k
                    (insertPath ((assocFind tf k).getD (JVal.vobj [])) (r :: rs) v))
                  from rfl] at hn
              by_cases hk : k = quillTomlChars
              · subst hk
                rw [show rootLookup (JVal.vobj (setKey tf quillTomlChars
                    (insertPath ((assocFind tf quillTomlChars).getD (JVal.vobj []))
                      (r :: rs) v))) quillTomlChars =
                    assocFind (setKey tf quillTomlChars
                    (insertPath ((assocFind tf quillTomlChars).getD (JVal.vobj []))
                      (r :: rs) v)) quillTomlChars from rfl,
                  assocFind_setKey_self] at hn
                cases hn
                apply insertPath_contents_safe _ _ _ hv
                cases hc : assocFind tf quillTomlChars with
                | none => simp [rootLookup, assocFind]
                | some c0 => exact hsafe c0 hc
              · rw [show rootLookup (JVal.vobj (setKey tf k
                    (insertPath ((assocFind tf k).getD (JVal.vobj [])) (r :: rs) v)))
                    quillTomlChars =
                    assocFind (setKey tf k
                    (insertPath ((assocFind tf k).getD (JVal.vobj [])) (r :: rs) v))
                    quillTomlChars from rfl,
                  assocFind_setKey_ne tf _ _ _ hk] at hn
                exact hsafe n hn

/-- One loop iteration of fromZip preserves manifest safety. -/
theorem entryStep_manifestSafe (pfx : List Char) (t : JVal) (e : ZipEntry)
    (hsafe : manifestSafe t) : manifestSafe (entryStep pfx t e) := by
  unfold entryStep
  split
  · exact hsafe
  · split
    · exact hsafe
    · rename_i hskip
      apply insertPath_manifestSafe _ _ _ (entryValue_isObj e) _ hsafe
      intro hparts bs
      have hrel : (if !pfx.isEmpty then e.path.drop pfx.length else e.path) = quillTomlChars :=
        splitChars_singleton '/' _ _ hparts
      have hbin : detectBinaryFile e.path = false := by
        by_cases hp : pfx.isEmpty = true
        · rw [if_neg (by simp [hp])] at hrel
          have : e.path = [] ++ quillTomlChars := by simpa using hrel
          rw [this]
          exact detectBinaryFile_quillToml []
        · have hpe : (!pfx.isEmpty) = true := by simp [hp]
          have hstart : startsList pfx e.path = true := by
            by_contra hs
            apply hskip
            simp only [hpe, Bool.true_and, Bool.not_eq_true']
            simp only [Bool.not_eq_true] at hs
            simp [hs]
          rw [if_pos hpe] at hrel
          have hdecomp := startsList_drop pfx e.path hstart
          rw [hdecomp, hrel]
          exact detectBinaryFile_quillToml pfx
      rw [show entryValue e =
          JVal.vobj [(contentsChars, JVal.vstr (utf8Decode e.data))] by
        simp [entryValue, hbin]]
      intro hcontra
      rw [show rootLookup (JVal.vobj [(contentsChars, JVal.vstr (utf8Decode e.data))])
          contentsChars = some (JVal.vstr (utf8Decode e.data)) by
        simp [rootLookup, assocFind]] at hcontra
      exact JVal.noConfusion (Option.some.injEq _ _ ▸ hcontra)

/-- The whole loop of fromZip yields a manifest-safe tree. -/
theorem processEntries_manifestSafe (pfx : List Char) (entries : List ZipEntry) :
    manifestSafe (processEntries pfx entries) := by
  have key : ∀ (l : List ZipEntry) (acc : JVal), manifestSafe acc →
      manifestSafe (l.foldl (entryStep pfx) acc) := by
    intro l
    induction l with
    | nil => exact fun acc h => h
    | cons e es ih => exact fun acc h => ih _ (entryStep_manifestSafe pfx acc e h)
  apply key
  intro n hn
  simp [rootLookup, assocFind] at hn

/-- C2 amended: every successful load carries the manifest key under the
files root; the node there exists, and whenever it has a primitive contents
value that value is a string, never a byte array; the node can however be a
Directory Entry with no contents at all, when the archive only holds
entries nested beneath the manifest name. -/
theorem fromZip_manifest (entries : List ZipEntry) (b : JVal)
    (h : fromZip entries = Except.ok b) :
    ∃ ft node, rootLookup b filesChars = some ft ∧
      rootLookup ft quillTomlChars = some node ∧
      ∀ bs, rootLookup node contentsChars ≠ some (JVal.vbytes bs) := by
  have hsafe := processEntries_manifestSafe (computePfx entries) entries
  simp only [fromZip] at h
  by_cases hsome : (rootLookup (processEntries (computePfx entries) entries)
      quillTomlChars).isSome = true
  · rw [if_pos hsome] at h
    obtain ⟨node, hnode⟩ := Option.isSome_iff_exists.mp hsome
    cases h
    exact ⟨processEntries (computePfx entries) entries, node,
      by simp [rootLookup, assocFind], hnode, hsafe node hnode⟩
  · rw [if_neg hsome] at h
    exact absurd h (by simp)

/-- Archive holding just the manifest file. -/
def manifestOnlyArchive : List ZipEntry := [⟨"Quill.toml".data, [104, 105]⟩]

/-- Witness for the amended C2 on the one-file archive. -/
theorem fromZip_manifest_check :
    ∃ ft node, rootLookup (JVal.vobj [(filesChars, JVal.vobj [(quillTomlChars,
        JVal.vobj [(contentsChars, JVal.vstr ['h', 'i'])])])]) filesChars = some ft ∧
      rootLookup ft quillTomlChars = some node ∧
      ∀ bs, rootLookup node contentsChars ≠ some (JVal.vbytes bs) :=
  fromZip_manifest manifestOnlyArchive
    (JVal.vobj [(filesChars, JVal.vobj [(quillTomlChars,
      JVal.vobj [(contentsChars, JVal.vstr ['h', 'i'])])])]) (by with_unfolding_all rfl)

/-- Archive whose only entry lives inside a folder named like the
manifest. -/
def dirManifestArchive : List ZipEntry := [⟨"Quill.toml/x".data, []⟩]

/-- C2 counterexample: the load resolves, yet the manifest key holds a
Directory Entry with no contents value at all, so the claimed text File
Entry guarantee fails. -/
theorem fromZip_manifest_dir_cex :
    (bundleFiles (fromZip dirManifestArchive)).isSome = true ∧
    ((nodeAt (fromZip dirManifestArchive) [filesChars, quillTomlChars]).map
      (fun n => (rootLookup n contentsChars).isSome)) = some false ∧
    (nodeAt (fromZip dirManifestArchive) [filesChars, quillTomlChars, "x".data]).isSome
      = true := by
  decide

/-- Proper-ancestor test on segment lists: a strictly shorter path extended
by the longer one. -/
def ancOf (p q : List (List Char)) : Bool :=
  decide (p.length < q.length) && decide (q.take p.length = p)

/-- Well-formed tree nodes: exactly a File Entry, or a directory whose
entries are all well-formed objects. -/
inductive GoodNode : JVal → Prop where
  | file (p : JVal) (hp : isPrimB p = true) : GoodNode (JVal.vobj [(contentsChars, p)])
  | dir (fields : List (List Char × JVal))
      (hprim : ∀ kv ∈ fields, isPrimB kv.2 = false)
      (hgood : ∀ kv ∈ fields, GoodNode kv.2) :
      GoodNode (JVal.vobj fields)

/-- Well-formed directory root. -/
def GoodDir (t : JVal) : Prop :=
  ∃ fields, t = JVal.vobj fields ∧ (∀ kv ∈ fields, isPrimB kv.2 = false) ∧
    ∀ kv ∈ fields, GoodNode kv.2

/-- Absence of File Entries strictly along a path; the final key itself may
hold anything. -/
def NoFileOnPath : JVal → List (List Char) → Prop
  | _, [] => True
  | _, [_] => True
  | t, k :: rest => ∀ c, rootLookup t k = some c →
      hasPrimContents c = false ∧ NoFileOnPath c rest

/-- Unfolding of the File Entry test on an object through its contents
binding. -/
theorem hasPrimContents_some (f : List (List Char × JVal)) (c : JVal)
    (h : assocFind f contentsChars = some c) :
    hasPrimContents (JVal.vobj f) = isPrimB c := by
  unfold hasPrimContents
  rw [show rootLookup (JVal.vobj f) contentsChars = assocFind f contentsChars from rfl, h]

/-- An object without a contents binding is no File Entry. -/
theorem hasPrimContents_none (f : List (List Char × JVal))
    (h : assocFind f contentsChars = none) :
    hasPrimContents (JVal.vobj f) = false := by
  unfold hasPrimContents
  rw [show rootLookup (JVal.vobj f) contentsChars = assocFind f contentsChars from rfl, h]

/-- Primitives are no File Entries. -/
theorem hasPrimContents_prim (v : JVal) (h : isPrimB v = true) :
    hasPrimContents v = false := by
  cases v with
  | vstr s => rfl
  | vbytes b => rfl
  | vobj f => simp [isPrimB] at h

/-- A well-formed node is never both a File Entry and a directory. -/
theorem goodNode_not_both (v : JVal) (h : GoodNode v) : bothFileAndDir v = false := by
  cases h with
  | file p hp =>
      have hchild : hasObjChild (JVal.vobj [(contentsChars, p)]) = false := by
        simp [hasObjChild, hp]
      simp [bothFileAndDir, hchild]
  | dir fields hfprim hfgood =>
      have hc : hasPrimContents (JVal.vobj fields) = false := by
        cases hfind : assocFind fields contentsChars with
        | none => exact hasPrimContents_none fields hfind
        | some c =>
            rw [hasPrimContents_some fields c hfind]
            exact hfprim _ (assocFind_mem fields contentsChars c hfind)
      simp [bothFileAndDir, hc]

/-- A primitive is never both a File Entry and a directory. -/
theorem primB_not_both (v : JVal) (h : isPrimB v = true) : bothFileAndDir v = false := by
  simp [bothFileAndDir, hasPrimContents_prim v h]

/-- Unfolding of resolution at an object node. -/
theorem resolveNode_cons (f : List (List Char × JVal)) (k : List Char)
    (rest : List (List Char)) :
    resolveNode (JVal.vobj f) (k :: rest) =
      match assocFind f k with
      | some c => resolveNode c rest
      | none => none := rfl

/-- Resolution below a primitive fails. -/
theorem resolveNode_prim_cons (v : JVal) (hp : isPrimB v = true) (k : List Char)
    (rest : List (List Char)) : resolveNode v (k :: rest) = none := by
  cases v with
  | vstr s => rfl
  | vbytes b => rfl
  | vobj f => simp [isPrimB] at hp

/-- Every node resolved inside a well-formed node is well-formed or a
primitive contents value. -/
theorem resolveNode_good : ∀ (parts : List (List Char)) (v n : JVal),
    GoodNode v → resolveNode v parts = some n → GoodNode n ∨ isPrimB n = true := by
  intro parts
  induction parts with
  | nil =>
      intro v n hg hr
      rw [show resolveNode v [] = some v from rfl] at hr
      cases hr
      exact Or.inl hg
  | cons k rest ih =>
      intro v n hg hr
      cases hg with
      | file p hp =>
          rw [resolveNode_cons] at hr
          cases hfind : assocFind [(contentsChars, p)] k with
          | none =>
              simp only [hfind] at hr
              exact absurd hr (by simp)
          | some c =>
              simp only [hfind] at hr
              have hcp : c = p := by
                by_cases hk : contentsChars = k
                · rw [show assocFind [(contentsChars, p)] k =
                      if contentsChars = k then some p else none from rfl, if_pos hk] at hfind
                  cases hfind
                  rfl
                · rw [show assocFind [(contentsChars, p)] k =
                      if contentsChars = k then some p else none from rfl, if_neg hk] at hfind
                  exact absurd hfind (by simp)
              subst hcp
              cases rest with
              | nil =>
                  rw [show resolveNode c [] = some c from rfl] at hr
                  cases hr
                  exact Or.inr hp
              | cons r rs =>
                  rw [resolveNode_prim_cons c hp r rs] at hr
                  exact absurd hr (by simp)
      | dir fields hfprim hfgood =>
          rw [resolveNode_cons] at hr
          cases hfind : assocFind fields k with
          | none =>
              simp only [hfind] at hr
              exact absurd hr (by simp)
          | some c =>
              simp only [hfind] at hr
              exact ih c n (hfgood _ (assocFind_mem fields k c hfind)) hr

/-- The empty directory has no File Entry along any path. -/
theorem noFileOnPath_empty (parts : List (List Char)) :
    NoFileOnPath (JVal.vobj []) parts := by
  cases parts with
  | nil => exact True.intro
  | cons k rest =>
      cases rest with
      | nil => exact True.intro
      | cons r rs =>
          intro c hc
          exact absurd hc (by simp [rootLookup, assocFind])

/-- Insertion keeps an object that is no File Entry that way. -/
theorem insertPath_hasPrimContents (child : JVal) (ps : List (List Char)) (v : JVal)
    (hv : isPrimB v = false) (hch : hasPrimContents child = false) :
    hasPrimContents (insertPath child ps v) = false := by
  cases child with
  | vstr s => rw [insertPath_prim (JVal.vstr s) rfl ps v]; exact hch
  | vbytes bb => rw [insertPath_prim (JVal.vbytes bb) rfl ps v]; exact hch
  | vobj cf =>
      cases ps with
      | nil =>
          rw [show insertPath (JVal.vobj cf) [] v =
              JVal.vobj (setKey cf ("undefined".data) v) from rfl]
          cases hfind : assocFind cf contentsChars with
          | none =>
              exact hasPrimContents_none _
                ((assocFind_setKey_ne cf _ _ v (by decide)).trans hfind)
          | some c =>
              rw [hasPrimContents_some _ c
                ((assocFind_setKey_ne cf _ _ v (by decide)).trans hfind)]
              rwa [hasPrimContents_some cf c hfind] at hch
      | cons k rest =>
          cases rest with
          | nil =>
              rw [show insertPath (JVal.vobj cf) [k] v =
                  JVal.vobj (setKey cf k v) from rfl]
              by_cases hk : k = contentsChars
              · subst hk
                rw [hasPrimContents_some _ v (assocFind_setKey_self cf contentsChars v)]
                exact hv
              · cases hfind : assocFind cf contentsChars with
                | none =>
                    exact hasPrimContents_none _
                      ((assocFind_setKey_ne cf k _ v hk).trans hfind)
                | some c =>
                    rw [hasPrimContents_some _ c
                      ((assocFind_setKey_ne cf k _ v hk).trans hfind)]
                    rwa [hasPrimContents_some cf c hfind] at hch
          | cons r rs =>
              rw [show insertPath (JVal.vobj cf) (k :: r :: rs) v =
                  JVal.vobj (setKey cf k
                    (insertPath ((assocFind cf k).getD (JVal.vobj [])) (r :: rs) v))
                  from rfl]
              by_cases hk : k = contentsChars
              · subst hk
                rw [hasPrimContents_some _ _ (assocFind_setKey_self cf _ _)]
                rcases insertPath_shape ((assocFind cf contentsChars).getD (JVal.vobj []))
                    (r :: rs) v with ⟨hprim, heq⟩ | ⟨f2, heq⟩
                · rw [heq]
                  cases hfind : assocFind cf contentsChars with
                  | none =>
                      rw [hfind] at hprim
                      simp [isPrimB] at hprim
                  | some c2 =>
                      rw [hfind] at hprim
                      exfalso
                      rw [hasPrimContents_some cf c2 hfind] at hch
                      simp only [Option.getD] at hprim
                      rw [hch] at hprim
                      exact Bool.false_ne_true hprim
                · rw [heq]
                  rfl
              · cases hfind : assocFind cf contentsChars with
                | none =>
                    exact hasPrimContents_none _
                      ((assocFind_setKey_ne cf k _ _ hk).trans hfind)
                | some c =>
                    rw [hasPrimContents_some _ c
                      ((assocFind_setKey_ne cf k _ _ hk).trans hfind)]
                    rwa [hasPrimContents_some cf c hfind] at hch

/-- Extending both paths by the same head preserves ancestry. -/
theorem ancOf_cons (k : List Char) (ps rest : List (List Char))
    (h : ancOf ps rest = true) : ancOf (k :: ps) (k :: rest) = true := by
  simp only [ancOf, Bool.and_eq_true, decide_eq_true_eq] at h ⊢
  obtain ⟨h1, h2⟩ := h
  constructor
  · simpa [List.length_cons] using Nat.succ_lt_succ h1
  · simp [List.length_cons, List.take_succ_cons, h2]

/-- Primitives have no File Entry along any path. -/
theorem noFileOnPath_prim (t : JVal) (hp : isPrimB t = true)
    (parts : List (List Char)) : NoFileOnPath t parts := by
  cases parts with
  | nil => exact True.intro
  | cons k rest =>
      cases rest with
      | nil => exact True.intro
      | cons r rs =>
          intro c hc
          cases t with
          | vstr s => exact absurd hc (by simp [rootLookup])
          | vbytes b => exact absurd hc (by simp [rootLookup])
          | vobj f => simp [isPrimB] at hp

/-- Inserting at a path that is no proper ancestor of another path keeps
that other path free of interior File Entries. -/
theorem insertPath_noFile : ∀ (q : List (List Char)) (t : JVal) (p : List (List Char))
    (v : JVal), NoFileOnPath t q → ancOf p q = false → isPrimB v = false →
    NoFileOnPath (insertPath t p v) q := by
  intro q
  induction q with
  | nil => intro t p v _ _ _; exact True.intro
  | cons x rest ih =>
      intro t p v hq hanc hv
      cases rest with
      | nil => exact True.intro
      | cons r rs =>
          cases t with
          | vstr s => rw [insertPath_prim (JVal.vstr s) rfl p v]; exact hq
          | vbytes bb => rw [insertPath_prim (JVal.vbytes bb) rfl p v]; exact hq
          | vobj f =>
              cases p with
              | nil =>
                  exfalso
                  rw [show ancOf [] (x :: r :: rs) = true from by
                    simp [ancOf]] at hanc
                  exact absurd hanc (by simp)
              | cons k ps =>
                  cases ps with
                  | nil =>
                      intro c hc
                      by_cases hxk : x = k
                      · exfalso
                        subst hxk
                        rw [show ancOf [x] (x :: r :: rs) = true from by
                          simp [ancOf, List.take_succ_cons]] at hanc
                        exact absurd hanc (by simp)
                      · rw [show rootLookup (insertPath (JVal.vobj f) [k] v) x =
                            assocFind (setKey f k v) x from rfl,
                          assocFind_setKey_ne f k x v (fun he => hxk he.symm)] at hc
                        exact hq c hc
                  | cons p2 ps2 =>
                      intro c hc
                      by_cases hxk : x = k
                      · subst hxk
                        rw [show rootLookup (insertPath (JVal.vobj f) (x :: p2 :: ps2) v) x =
                            assocFind (setKey f x
                              (insertPath ((assocFind f x).getD (JVal.vobj []))
                                (p2 :: ps2) v)) x from rfl,
                          assocFind_setKey_self] at hc
                        cases hc
                        have hanc2 : ancOf (p2 :: ps2) (r :: rs) = false := by
                          by_contra hcon
                          rw [Bool.not_eq_false] at hcon
                          rw [ancOf_cons x (p2 :: ps2) (r :: rs) hcon] at hanc
                          exact absurd hanc (by simp)
                        cases hch : assocFind f x with
                        | none =>
                            refine ⟨?_, ?_⟩
                            · exact insertPath_hasPrimContents (JVal.vobj []) (p2 :: ps2) v
                                hv (hasPrimContents_none [] rfl)
                            · exact ih (JVal.vobj []) (p2 :: ps2) v
                                (noFileOnPath_empty (r :: rs)) hanc2 hv
                        | some ch =>
                            obtain ⟨hch1, hch2⟩ := hq ch (by
                              show assocFind f x = some ch
                              exact hch)
                            exact ⟨insertPath_hasPrimContents ch (p2 :: ps2) v hv hch1,
                              ih ch (p2 :: ps2) v hch2 hanc2 hv⟩
                      · rw [show rootLookup (insertPath (JVal.vobj f) (k :: p2 :: ps2) v) x =
                            assocFind (setKey f k
                              (insertPath ((assocFind f k).getD (JVal.vobj []))
                                (p2 :: ps2) v)) x from rfl,
                          assocFind_setKey_ne f k x _ (fun he => hxk he.symm)] at hc
                        exact hq c hc

/-- Insertion at a path with no interior File Entry keeps the tree a
well-formed directory. -/
theorem insertPath_goodDir : ∀ (parts : List (List Char)) (t v : JVal),
    GoodDir t → NoFileOnPath t parts → isPrimB v = false → GoodNode v →
    GoodDir (insertPath t parts v) := by
  intro parts
  induction parts with
  | nil =>
      rintro t v ⟨f, rfl, hfp, hfg⟩ _ hv hgv
      refine ⟨setKey f ("undefined".data) v, rfl, ?_, ?_⟩
      · intro kv hkv
        rcases setKey_mem f _ v kv hkv with h1 | h1
        · exact hfp kv h1
        · rw [h1]; exact hv
      · intro kv hkv
        rcases setKey_mem f _ v kv hkv with h1 | h1
        · exact hfg kv h1
        · rw [h1]; exact hgv
  | cons k rest ih =>
      rintro t v ⟨f, rfl, hfp, hfg⟩ hnf hv hgv
      cases rest with
      | nil =>
          refine ⟨setKey f k v, rfl, ?_, ?_⟩
          · intro kv hkv
            rcases setKey_mem f k v kv hkv with h1 | h1
            · exact hfp kv h1
            · rw [h1]; exact hv
          · intro kv hkv
            rcases setKey_mem f k v kv hkv with h1 | h1
            · exact hfg kv h1
            · rw [h1]; exact hgv
      | cons r rs =>
          cases hch : assocFind f k with
          | none =>
              obtain ⟨f2, hf2eq, hf2p, hf2g⟩ := ih (JVal.vobj []) v ⟨[], rfl, by simp, by simp⟩
                (noFileOnPath_empty (r :: rs)) hv hgv
              refine ⟨setKey f k (insertPath (JVal.vobj []) (r :: rs) v), ?_, ?_, ?_⟩
              · rw [show insertPath (JVal.vobj f) (k :: r :: rs) v =
                    JVal.vobj (setKey f k
                      (insertPath ((assocFind f k).getD (JVal.vobj [])) (r :: rs) v))
                    from rfl, hch]
                rfl
              · intro kv hkv
                rcases setKey_mem f k _ kv hkv with h1 | h1
                · exact hfp kv h1
                · rw [h1, hf2eq]; rfl
              · intro kv hkv
                rcases setKey_mem f k _ kv hkv with h1 | h1
                · exact hfg kv h1
                · rw [h1, hf2eq]; exact GoodNode.dir f2 hf2p hf2g
          | some ch =>
              obtain ⟨hch1, hch2⟩ := hnf ch (by
                show assocFind f k = some ch
                exact hch)
              have hgch : GoodNode ch := hfg (k, ch) (assocFind_mem f k ch hch)
              have hdirch : GoodDir ch := by
                cases hgch with
                | file p hp =>
                    exfalso
                    rw [hasPrimContents_some [(contentsChars, p)] p (by
                      simp [assocFind])] at hch1
                    rw [hp] at hch1
                    exact absurd hch1 (by simp)
                | dir fields hfieldsp hfieldsg => exact ⟨fields, rfl, hfieldsp, hfieldsg⟩
              obtain ⟨f2, hf2eq, hf2p, hf2g⟩ := ih ch v hdirch hch2 hv hgv
              refine ⟨setKey f k (insertPath ch (r :: rs) v), ?_, ?_, ?_⟩
              · rw [show insertPath (JVal.vobj f) (k :: r :: rs) v =
                    JVal.vobj (setKey f k
                      (insertPath ((assocFind f k).getD (JVal.vobj [])) (r :: rs) v))
                    from rfl, hch]
                rfl
              · intro kv hkv
                rcases setKey_mem f k _ kv hkv with h1 | h1
                · exact hfp kv h1
                · rw [h1, hf2eq]; rfl
              · intro kv hkv
                rcases setKey_mem f k _ kv hkv with h1 | h1
                · exact hfg kv h1
                · rw [h1, hf2eq]; exact GoodNode.dir f2 hf2p hf2g

/-- Folding pairwise non-nested insertions over a well-formed directory
yields a well-formed directory. -/
theorem foldl_goodDir : ∀ (l : List (List (List Char) × JVal)) (t : JVal),
    GoodDir t →
    (∀ pv ∈ l, NoFileOnPath t pv.1) →
    (∀ pv ∈ l, isPrimB pv.2 = false ∧ GoodNode pv.2) →
    (∀ pv ∈ l, ∀ qv ∈ l, ancOf pv.1 qv.1 = false) →
    GoodDir (l.foldl (fun acc pv => insertPath acc pv.1 pv.2) t) := by
  intro l
  induction l with
  | nil => intro t ht _ _ _; exact ht
  | cons pv0 l2 ih =>
      intro t ht hnf hval hpair
      rw [List.foldl_cons]
      apply ih
      · exact insertPath_goodDir pv0.1 t pv0.2 ht (hnf pv0 (by simp))
          (hval pv0 (by simp)).1 (hval pv0 (by simp)).2
      · intro pv hpv
        exact insertPath_noFile pv.1 t pv0.1 pv0.2 (hnf pv (by simp [hpv]))
          (hpair pv0 (by simp) pv (by simp [hpv])) (hval pv0 (by simp)).1
      · intro pv hpv
        exact hval pv (by simp [hpv])
      · intro pv hpv qv hqv
        exact hpair pv (by simp [hpv]) qv (by simp [hqv])

/-- The insertions performed by the fromZip loop: the split stripped path
and the entry value, for every entry that is neither a directory marker nor
outside the strip piece. -/
def insertsOf (pfx : List Char) (entries : List ZipEntry) :
    List (List (List Char) × JVal) :=
  entries.filterMap (fun e =>
    if endsSlash e.path then none
    else if !pfx.isEmpty && !(startsList pfx e.path) then none
    else some (splitChars '/' (if !pfx.isEmpty then e.path.drop pfx.length else e.path),
      entryValue e))

/-- The fromZip loop is the fold of its insertions. -/
theorem processEntries_eq (pfx : List Char) (entries : List ZipEntry) :
    processEntries pfx entries =
      (insertsOf pfx entries).foldl (fun acc pv => insertPath acc pv.1 pv.2)
        (JVal.vobj []) := by
  have key : ∀ (l : List ZipEntry) (acc : JVal),
      l.foldl (entryStep pfx) acc =
        (insertsOf pfx l).foldl (fun acc pv => insertPath acc pv.1 pv.2) acc := by
    intro l
    induction l with
    | nil => intro acc; rfl
    | cons e es ih =>
        intro acc
        rw [List.foldl_cons]
        by_cases h1 : endsSlash e.path = true
        · rw [show entryStep pfx acc e = acc from by simp [entryStep, h1],
            show insertsOf pfx (e :: es) = insertsOf pfx es from by
              simp only [insertsOf, List.filterMap_cons]
              rw [if_pos h1]]
          exact ih acc
        · by_cases h2 : (!pfx.isEmpty && !(startsList pfx e.path)) = true
          · rw [show entryStep pfx acc e = acc from by simp [entryStep, h1, h2],
              show insertsOf pfx (e :: es) = insertsOf pfx es from by
                simp only [insertsOf, List.filterMap_cons]
                rw [if_neg h1, if_pos h2]]
            exact ih acc
          · rw [show entryStep pfx acc e = insertPath acc
                (splitChars '/' (if !pfx.isEmpty then e.path.drop pfx.length else e.path))
                (entryValue e) from by simp [entryStep, h1, h2],
              show insertsOf pfx (e :: es) =
                (splitChars '/' (if !pfx.isEmpty then e.path.drop pfx.length else e.path),
                  entryValue e) :: insertsOf pfx es from by
                simp only [insertsOf, List.filterMap_cons]
                rw [if_neg h1, if_neg h2],
              List.foldl_cons]
            exact ih _
  exact key entries (JVal.vobj [])

/-- Entry values are well-formed File Entry objects. -/
theorem entryValue_nonPrim_good (e : ZipEntry) :
    isPrimB (entryValue e) = false ∧ GoodNode (entryValue e) := by
  unfold entryValue
  split
  · exact ⟨rfl, GoodNode.file _ rfl⟩
  · exact ⟨rfl, GoodNode.file _ rfl⟩

/-- Every planned insertion carries a well-formed File Entry object. -/
theorem insertsOf_val (pfx : List Char) (entries : List ZipEntry)
    (pv : List (List Char) × JVal) (h : pv ∈ insertsOf pfx entries) :
    isPrimB pv.2 = false ∧ GoodNode pv.2 := by
  obtain ⟨e, he, hsome⟩ := List.mem_filterMap.mp h
  by_cases h1 : endsSlash e.path = true
  · rw [if_pos h1] at hsome
    exact absurd hsome (by simp)
  · rw [if_neg h1] at hsome
    by_cases h2 : (!pfx.isEmpty && !(startsList pfx e.path)) = true
    · rw [if_pos h2] at hsome
      exact absurd hsome (by simp)
    · rw [if_neg h2] at hsome
      cases hsome
      exact entryValue_nonPrim_good e

/-- C3 amended: for every archive whose planned insertion paths are
pairwise non-nested (no inserted path a proper ancestor of another), every
path of the loaded bundle resolves to a node that is not simultaneously a
File Entry and a Directory Entry. -/
theorem fromZip_tree_exclusive (entries : List ZipEntry) (b : JVal)
    (h : fromZip entries = Except.ok b)
    (hcf : ∀ pv ∈ insertsOf (computePfx entries) entries,
      ∀ qv ∈ insertsOf (computePfx entries) entries, ancOf pv.1 qv.1 = false) :
    ∀ parts n, resolveNode b parts = some n → bothFileAndDir n = false := by
  have hgood : GoodDir (processEntries (computePfx entries) entries) := by
    rw [processEntries_eq]
    apply foldl_goodDir
    · exact ⟨[], rfl, by simp, by simp⟩
    · intro pv _
      exact noFileOnPath_empty pv.1
    · intro pv hpv
      exact insertsOf_val _ _ pv hpv
    · exact hcf
  simp only [fromZip] at h
  by_cases hsome : (rootLookup (processEntries (computePfx entries) entries)
      quillTomlChars).isSome = true
  · rw [if_pos hsome] at h
    cases h
    intro parts n hr
    obtain ⟨tf, htf, htfp, htfg⟩ := hgood
    have hgn : GoodNode (processEntries (computePfx entries) entries) := by
      rw [htf]
      exact GoodNode.dir tf htfp htfg
    have hne : filesChars ≠ contentsChars := by decide
    cases parts with
    | nil =>
        rw [show resolveNode (JVal.vobj [(filesChars,
            processEntries (computePfx entries) entries)]) [] =
          some (JVal.vobj [(filesChars,
            processEntries (computePfx entries) entries)]) from rfl] at hr
        cases hr
        have hnofile : hasPrimContents (JVal.vobj [(filesChars,
            processEntries (computePfx entries) entries)]) = false := by
          apply hasPrimContents_none
          simp [assocFind, hne]
        simp [bothFileAndDir, hnofile]
    | cons k rest =>
        rw [resolveNode_cons] at hr
        by_cases hk : filesChars = k
        · rw [show assocFind [(filesChars,
              processEntries (computePfx entries) entries)] k =
              some (processEntries (computePfx entries) entries) from by
            simp [assocFind, hk]] at hr
          rcases resolveNode_good rest _ n hgn hr with hg | hp
          · exact goodNode_not_both n hg
          · exact primB_not_both n hp
        · rw [show assocFind [(filesChars,
              processEntries (computePfx entries) entries)] k = none from by
            simp [assocFind, hk]] at hr
          exact absurd hr (by simp)
  · rw [if_neg hsome] at h
    exact absurd h (by simp)

/-- Conflict-free archive with a manifest and one nested binary asset. -/
def plainArchive : List ZipEntry :=
  [⟨"Quill.toml".data, []⟩, ⟨"assets/logo.png".data, [1, 2]⟩]

/-- Witness for the amended C3 on a concrete conflict-free archive. -/
theorem fromZip_tree_exclusive_check :
    bothFileAndDir (JVal.vobj [(quillTomlChars, JVal.vobj [(contentsChars, JVal.vstr [])]),
      ("assets".data, JVal.vobj [("logo.png".data,
        JVal.vobj [(contentsChars, JVal.vbytes [1, 2])])])]) = false :=
  fromZip_tree_exclusive plainArchive
    (JVal.vobj [(filesChars,
      JVal.vobj [(quillTomlChars, JVal.vobj [(contentsChars, JVal.vstr [])]),
        ("assets".data, JVal.vobj [("logo.png".data,
          JVal.vobj [(contentsChars, JVal.vbytes [1, 2])])])])])
    (by with_unfolding_all rfl) (by decide) [filesChars]
    (JVal.vobj [(quillTomlChars, JVal.vobj [(contentsChars, JVal.vstr [])]),
      ("assets".data, JVal.vobj [("logo.png".data,
        JVal.vobj [(contentsChars, JVal.vbytes [1, 2])])])])
    (by with_unfolding_all rfl)

/-- Archive with a file at a path and entries nested beneath that same
path. -/
def conflictArchive : List ZipEntry :=
  [⟨"Quill.toml".data, []⟩, ⟨"a".data, []⟩, ⟨"a/b".data, []⟩]

/-- C3 counterexample: the conflicting archive loads, its node at the name
a is simultaneously a File Entry (it kept its string contents) and a
directory holding the File Entry a/b. -/
theorem fromZip_both_node_cex :
    ((nodeAt (fromZip conflictArchive) [filesChars, "a".data]).map bothFileAndDir) =
      some true ∧
    ((nodeAt (fromZip conflictArchive) [filesChars, "a".data, "b".data]).map
      hasPrimContents) = some true := by
  decide

end QuillmarkWeb
